import Mathlib

/-!
Verification of the multi-dataset batch index schedulers in
`sentence_transformers/sampler.py` (`RoundRobinBatchSampler` and
`ProportionalBatchSampler`).

The Python code is shallowly embedded below.  Machine integers are modelled
by `Nat` (no arithmetic in the source can overflow or go negative on the
inputs the spec admits).  The `torch.Generator` / `randperm` randomness used
by `SubsetRandomSampler` is modelled by an explicit deterministic
linear-congruential generator driving a Fisher-Yates shuffle: the model
captures exactly what the schedulers rely on, namely that seeding with
`seed + epoch` yields a deterministic permutation source and that each draw
is a permutation of its input.  Fallible Python code (a `raise` escaping) is
modelled with `Option` / `Except`.
-/

/-! ## Model of `torch.Generator` and `SubsetRandomSampler` -/

/-- State of a seeded pseudo-random generator; `torch.Generator()` followed by
`manual_seed(s)` is modelled as the state `s`. -/
abbrev Gen := Nat

/-- One step of the generator (a standard linear congruential update). -/
def lcg (g : Gen) : Gen := (g * 1103515245 + 12345) % 2147483648

/-- Draw a number below `n` (for `n > 0`) while advancing the generator. -/
def randBelow (g : Gen) (n : Nat) : Nat × Gen :=
  let g' := lcg g
  (g' % n, g')

/-- Remove the element at position `i` (identity when out of range). -/
def removeAt : List α → Nat → List α
  | [], _ => []
  | _ :: xs, 0 => xs
  | x :: xs, n + 1 => x :: removeAt xs n

/-- Fisher-Yates sampling without replacement; `fuel` is the length of the
remaining list. -/
def shuffleAux : Nat → List Nat → Gen → List Nat × Gen
  | 0, _, g => ([], g)
  | fuel + 1, l, g =>
    let (i, g') := randBelow g l.length
    let (rest, g'') := shuffleAux fuel (removeAt l i) g'
    (l.getD i 0 :: rest, g'')

/-- Model of iterating `SubsetRandomSampler(indices, generator=g)`: the
indices in a generator-determined random order, together with the advanced
generator state. -/
def randShuffle (l : List Nat) (g : Gen) : List Nat × Gen :=
  shuffleAux l.length l g

theorem removeAt_length {l : List α} {i : Nat} (h : i < l.length) :
    (removeAt l i).length = l.length - 1 := by
  induction l generalizing i with
  | nil => simp at h
  | cons x xs ih =>
    cases i with
    | zero => simp [removeAt]
    | succ n =>
      simp only [removeAt, List.length_cons]
      rw [ih (by simpa using h)]
      simp only [List.length_cons] at h
      omega

theorem getD_cons_removeAt_perm {l : List α} {i : Nat} (d : α) (h : i < l.length) :
    List.Perm (l.getD i d :: removeAt l i) l := by
  induction l generalizing i with
  | nil => simp at h
  | cons x xs ih =>
    cases i with
    | zero => simp [removeAt]
    | succ n =>
      have hn : n < xs.length := by simpa using h
      simp only [List.getD_cons_succ, removeAt]
      exact ((List.Perm.swap x (xs.getD n d) (removeAt xs n)).trans
        ((ih hn).cons x)).symm.symm

theorem shuffleAux_perm :
    ∀ (fuel : Nat) (l : List Nat) (g : Gen), l.length = fuel →
      List.Perm (shuffleAux fuel l g).1 l := by
  intro fuel
  induction fuel with
  | zero =>
    intro l g h
    have : l = [] := List.length_eq_zero.mp h
    simp [this, shuffleAux]
  | succ n ih =>
    intro l g h
    have hlen : 0 < l.length := by omega
    have hi : (randBelow g l.length).1 < l.length := Nat.mod_lt _ hlen
    have hrem : (removeAt l (randBelow g l.length).1).length = n := by
      rw [removeAt_length hi]; omega
    simp only [shuffleAux]
    exact ((ih _ (lcg g) hrem).cons _).trans (getD_cons_removeAt_perm 0 hi)

theorem randShuffle_perm (l : List Nat) (g : Gen) :
    List.Perm (randShuffle l g).1 l :=
  shuffleAux_perm l.length l g rfl

theorem randShuffle_length (l : List Nat) (g : Gen) :
    (randShuffle l g).1.length = l.length :=
  (randShuffle_perm l g).length_eq

/-! ## Range partitioner

Embeds `accumulated = list(accumulate(self.lengths))` and
`self.ranges = [(start, end) for start, end in zip([0] + accumulated, accumulated)]`
from both samplers' `__init__`. -/

/-- Running totals starting from `acc`; `accumulateFrom 0` is
`itertools.accumulate`. -/
def accumulateFrom (acc : Nat) : List Nat → List Nat
  | [] => []
  | x :: xs => (acc + x) :: accumulateFrom (acc + x) xs

/-- Model of `list(accumulate(lengths))`. -/
def accumulate (l : List Nat) : List Nat := accumulateFrom 0 l

/-- Model of `self.ranges`: pairs of consecutive running totals, one
half-open interval per dataset. -/
def ranges (lengths : List Nat) : List (Nat × Nat) :=
  List.zip (0 :: accumulate lengths) (accumulate lengths)

theorem accumulateFrom_length (acc : Nat) (l : List Nat) :
    (accumulateFrom acc l).length = l.length := by
  induction l generalizing acc with
  | nil => rfl
  | cons x xs ih => simp [accumulateFrom, ih]

theorem ranges_length (lengths : List Nat) :
    (ranges lengths).length = lengths.length := by
  simp [ranges, List.length_zip, accumulate, accumulateFrom_length]

theorem zip_acc_getD (a : Nat) (l : List Nat) :
    ∀ i, i < l.length →
      (List.zip (a :: accumulateFrom a l) (accumulateFrom a l)).getD i (0, 0)
        = (a + (l.take i).sum, a + (l.take (i + 1)).sum) := by
  induction l generalizing a with
  | nil => intro i h; simp at h
  | cons x xs ih =>
    intro i h
    cases i with
    | zero => simp [accumulateFrom]
    | succ j =>
      have hj : j < xs.length := by simpa using h
      simp only [accumulateFrom, List.zip_cons_cons, List.getD_cons_succ,
        List.take_succ_cons, List.sum_cons]
      rw [ih (a + x) j hj]
      simp [Nat.add_assoc]

theorem ranges_getD (lengths : List Nat) (i : Nat) (hi : i < lengths.length) :
    (ranges lengths).getD i (0, 0)
      = ((lengths.take i).sum, (lengths.take (i + 1)).sum) := by
  have := zip_acc_getD 0 lengths i hi
  simpa [ranges, accumulate] using this

theorem zip_acc_bind (a : Nat) (l : List Nat) :
    (List.zip (a :: accumulateFrom a l) (accumulateFrom a l)).flatMap
        (fun p => List.range' p.1 (p.2 - p.1))
      = List.range' a l.sum := by
  induction l generalizing a with
  | nil => simp [accumulateFrom]
  | cons x xs ih =>
    simp only [accumulateFrom, List.zip_cons_cons, List.flatMap_cons, List.sum_cons]
    rw [ih (a + x)]
    have h1 : a + x - a = x := by omega
    rw [h1]
    have := List.range'_append a x xs.sum 1
    simp only [Nat.one_mul] at this
    rw [Nat.add_comm x xs.sum]
    exact this

/-- The ranges tile the global index space `[0, sum lengths)` in order. -/
theorem ranges_bind (lengths : List Nat) :
    (ranges lengths).flatMap (fun p => List.range' p.1 (p.2 - p.1))
      = List.range (lengths.sum) := by
  rw [List.range_eq_range']
  exact zip_acc_bind 0 lengths

theorem zip_acc_map_sub (a : Nat) (l : List Nat) :
    (List.zip (a :: accumulateFrom a l) (accumulateFrom a l)).map
        (fun p => p.2 - p.1)
      = l := by
  induction l generalizing a with
  | nil => simp [accumulateFrom]
  | cons x xs ih =>
    simp only [accumulateFrom, List.zip_cons_cons, List.map_cons]
    rw [ih (a + x)]
    congr 1
    omega

/-- Each range has exactly its dataset's length. -/
theorem ranges_map_sub (lengths : List Nat) :
    (ranges lengths).map (fun p => p.2 - p.1) = lengths :=
  zip_acc_map_sub 0 lengths

/-! ## Per-dataset batcher

Embeds `BatchSampler(sampler, batch_size, drop_last)` from
`torch.utils.data`: consecutive groups of `batch_size` indices drawn from the
underlying sampler, the final partial group kept only when `drop_last` is
false.  `BatchSampler.__init__` raises `ValueError` when `batch_size <= 0`,
modelled by `Option` in `buildBatchSamplers`. -/

/-- Split a list into consecutive chunks of size `bs`; `fuel` bounds the
recursion (callers pass the list length, enough whenever `bs > 0`). -/
def chunksAux (bs : Nat) : Nat → List Nat → List (List Nat)
  | _, [] => []
  | 0, _ => []
  | fuel + 1, l => l.take bs :: chunksAux bs fuel (l.drop bs)

/-- All consecutive `bs`-sized chunks of `l` (last one possibly shorter). -/
def chunkList (bs : Nat) (l : List Nat) : List (List Nat) :=
  chunksAux bs l.length l

/-- Model of iterating `BatchSampler(sampler, bs, drop_last)` where `idxs`
is the sequence produced by the underlying sampler. -/
def batchSampler (bs : Nat) (drop_last : Bool) (idxs : List Nat) : List (List Nat) :=
  let cs := chunkList bs idxs
  if drop_last then cs.filter (fun b => b.length == bs) else cs

/-- Model of `BatchSampler.__len__`: `len // bs` with drop-last, else
ceiling division `(len + bs - 1) // bs`. -/
def batchSamplerLen (numIndices bs : Nat) (drop_last : Bool) : Nat :=
  if drop_last then numIndices / bs else (numIndices + bs - 1) / bs

theorem chunksAux_congr (bs : Nat) (hbs : 0 < bs) :
    ∀ fuel fuel' l, l.length ≤ fuel → l.length ≤ fuel' →
      chunksAux bs fuel l = chunksAux bs fuel' l := by
  intro fuel
  induction fuel with
  | zero =>
    intro fuel' l h _
    have : l = [] := List.length_eq_zero.mp (by omega)
    subst this
    cases fuel' <;> rfl
  | succ n ih =>
    intro fuel' l h h'
    cases l with
    | nil => cases fuel' <;> rfl
    | cons x xs =>
      cases fuel' with
      | zero => simp at h'
      | succ m =>
        simp only [chunksAux]
        congr 1
        apply ih
        · simp only [List.length_drop, List.length_cons] at *
          omega
        · simp only [List.length_drop, List.length_cons] at *
          omega

theorem chunkList_cons (bs : Nat) (hbs : 0 < bs) (l : List Nat) (hl : l ≠ []) :
    chunkList bs l = l.take bs :: chunkList bs (l.drop bs) := by
  cases l with
  | nil => exact absurd rfl hl
  | cons x xs =>
    show chunksAux bs (xs.length + 1) (x :: xs) = _
    simp only [chunksAux]
    congr 1
    apply chunksAux_congr bs hbs
    · simp only [List.length_drop, List.length_cons]
      omega
    · exact Nat.le_refl _

theorem chunkList_nil (bs : Nat) : chunkList bs [] = [] := rfl

/-- Number of chunks: ceiling division. -/
theorem chunkList_length (bs : Nat) (hbs : 0 < bs) (l : List Nat) :
    (chunkList bs l).length = (l.length + bs - 1) / bs := by
  generalize hn : l.length = n
  induction n using Nat.strong_induction_on generalizing l with
  | _ n ih =>
    cases l with
    | nil =>
      simp only [chunkList_nil, List.length_nil] at hn ⊢
      subst hn
      symm
      apply Nat.div_eq_of_lt
      omega
    | cons x xs =>
      rw [chunkList_cons bs hbs _ (by simp)]
      simp only [List.length_cons] at hn
      have hpos : 0 < n := by omega
      rw [List.length_cons, ih ((x :: xs).drop bs).length
        (by simp [List.length_drop, hn]; omega) _ rfl]
      simp only [List.length_drop, List.length_cons, hn]
      rcases Nat.lt_or_ge n bs with hlt | hge
      · have h1 : n - bs = 0 := by omega
        rw [h1]
        have h2 : (n + bs - 1) / bs = 1 := by
          apply Nat.div_eq_of_lt_le
          · omega
          · omega
        rw [h2, Nat.zero_add, Nat.div_eq_of_lt (by omega)]
      · have h1 : n + bs - 1 = (n - bs + bs - 1) + bs := by omega
        rw [h1, Nat.add_div_right _ hbs]

/-- Number of full chunks: floor division. -/
theorem chunkList_filter_length (bs : Nat) (hbs : 0 < bs) (l : List Nat) :
    ((chunkList bs l).filter (fun b => b.length == bs)).length = l.length / bs := by
  generalize hn : l.length = n
  induction n using Nat.strong_induction_on generalizing l with
  | _ n ih =>
    cases l with
    | nil =>
      simp only [chunkList_nil, List.length_nil] at hn ⊢
      subst hn
      simp [Nat.div_eq_of_lt, hbs]
    | cons x xs =>
      rw [chunkList_cons bs hbs _ (by simp)]
      simp only [List.length_cons] at hn
      have htake : ((x :: xs).take bs).length = min bs n := by
        simp [List.length_take, hn]
      rcases Nat.lt_or_ge n bs with hlt | hge
      · have hmin : bs ⊓ n = n := Nat.min_eq_right (Nat.le_of_lt hlt)
        have hne : ¬ ((fun (b : List Nat) => b.length == bs) ((x :: xs).take bs) = true) := by
          simp only [htake, beq_iff_eq, hmin]
          omega
        rw [@List.filter_cons_of_neg _ (fun (b : List Nat) => b.length == bs) _ _ hne]
        rw [ih ((x :: xs).drop bs).length (by simp [List.length_drop, hn]; omega) _ rfl]
        simp only [List.length_drop, List.length_cons, hn]
        have h1 : n - bs = 0 := by omega
        rw [h1, Nat.zero_div, Nat.div_eq_of_lt hlt]
      · have hmin : bs ⊓ n = bs := Nat.min_eq_left hge
        have heq : (fun (b : List Nat) => b.length == bs) ((x :: xs).take bs) = true := by
          simp only [htake, beq_iff_eq, hmin]
        rw [@List.filter_cons_of_pos _ (fun (b : List Nat) => b.length == bs) _ _ heq, List.length_cons]
        rw [ih ((x :: xs).drop bs).length (by simp [List.length_drop, hn]; omega) _ rfl]
        simp only [List.length_drop, List.length_cons, hn]
        have h2 : n / bs = (n - bs) / bs + 1 := by
          conv_lhs => rw [show n = (n - bs) + bs by omega]
          rw [Nat.add_div_right _ hbs]
        omega

/-- The batcher produces exactly `batchSamplerLen` batches. -/
theorem batchSampler_length (bs : Nat) (hbs : 0 < bs) (drop_last : Bool) (idxs : List Nat) :
    (batchSampler bs drop_last idxs).length = batchSamplerLen idxs.length bs drop_last := by
  cases drop_last with
  | false =>
    have h1 : batchSampler bs false idxs = chunkList bs idxs := rfl
    have h2 : batchSamplerLen idxs.length bs false = (idxs.length + bs - 1) / bs := rfl
    rw [h1, h2]
    exact chunkList_length bs hbs idxs
  | true =>
    have h1 : batchSampler bs true idxs
        = (chunkList bs idxs).filter (fun b => b.length == bs) := rfl
    have h2 : batchSamplerLen idxs.length bs true = idxs.length / bs := rfl
    rw [h1, h2]
    exact chunkList_filter_length bs hbs idxs

theorem take_range' : ∀ (m s n : Nat), (List.range' s n).take m = List.range' s (min m n) := by
  intro m
  induction m with
  | zero => intro s n; simp
  | succ m ih =>
    intro s n
    cases n with
    | zero => simp
    | succ k =>
      have h1 : List.range' s (k + 1) = s :: List.range' (s + 1) k := rfl
      have h2 : min (m + 1) (k + 1) = min m k + 1 := by omega
      rw [h1, h2, List.take_succ_cons, ih (s + 1) k]
      rfl

theorem drop_range' : ∀ (m s n : Nat), (List.range' s n).drop m = List.range' (s + m) (n - m) := by
  intro m
  induction m with
  | zero => intro s n; simp
  | succ m ih =>
    intro s n
    cases n with
    | zero => simp
    | succ k =>
      have h1 : List.range' s (k + 1) = s :: List.range' (s + 1) k := rfl
      rw [h1, List.drop_succ_cons, ih (s + 1) k]
      have e1 : s + 1 + m = s + (m + 1) := by omega
      have e2 : k - m = k + 1 - (m + 1) := by omega
      rw [e1, e2]

/-- Closed form of the `j`-th chunk of an ascending index range. -/
theorem chunkList_range'_getD (bs : Nat) (hbs : 0 < bs) :
    ∀ (j s L : Nat), j * bs < L →
      (chunkList bs (List.range' s L)).getD j []
        = List.range' (s + j * bs) (min bs (L - j * bs)) := by
  intro j
  induction j with
  | zero =>
    intro s L h
    simp only [Nat.zero_mul] at h
    have hne : List.range' s L ≠ [] := by
      intro hc
      have := congrArg List.length hc
      simp [List.length_range'] at this
      omega
    rw [chunkList_cons bs hbs _ hne, List.getD_cons_zero, take_range']
    simp only [Nat.zero_mul, Nat.add_zero, Nat.sub_zero]
  | succ j ih =>
    intro s L h
    have hbsL : bs < L := by
      have : bs ≤ (j + 1) * bs := by
        simp only [Nat.succ_mul]
        omega
      omega
    have hne : List.range' s L ≠ [] := by
      intro hc
      have := congrArg List.length hc
      simp [List.length_range'] at this
      omega
    rw [chunkList_cons bs hbs _ hne, List.getD_cons_succ, drop_range']
    rw [ih (s + bs) (L - bs) (by simp only [Nat.succ_mul] at h; omega)]
    have e1 : s + bs + j * bs = s + (j + 1) * bs := by
      simp only [Nat.succ_mul]
      omega
    have e2 : L - bs - j * bs = L - (j + 1) * bs := by
      simp only [Nat.succ_mul]
      omega
    rw [e1, e2]

/-- Closed form of the `j`-th batch with drop-last: always a full,
`bs`-sized ascending run. -/
theorem batchSampler_true_getD (bs : Nat) (hbs : 0 < bs) :
    ∀ (j s L : Nat), (j + 1) * bs ≤ L →
      (batchSampler bs true (List.range' s L)).getD j []
        = List.range' (s + j * bs) bs := by
  intro j
  induction j with
  | zero =>
    intro s L h
    have h' : bs ≤ L := by omega
    have hne : List.range' s L ≠ [] := by
      intro hc
      have := congrArg List.length hc
      simp [List.length_range'] at this
      omega
    have hb : batchSampler bs true (List.range' s L)
        = (chunkList bs (List.range' s L)).filter (fun b => b.length == bs) := rfl
    rw [hb, chunkList_cons bs hbs _ hne, take_range']
    have hmin : min bs L = bs := Nat.min_eq_left h'
    rw [hmin]
    have hpos : (fun (b : List Nat) => b.length == bs) (List.range' s bs) = true := by
      simp [List.length_range']
    rw [@List.filter_cons_of_pos _ (fun (b : List Nat) => b.length == bs) _ _ hpos]
    simp
  | succ j ih =>
    intro s L h
    have hbsL : bs < L := by
      have : bs + bs ≤ (j + 1 + 1) * bs := by
        simp only [Nat.succ_mul]
        omega
      omega
    have hne : List.range' s L ≠ [] := by
      intro hc
      have := congrArg List.length hc
      simp [List.length_range'] at this
      omega
    have hb : batchSampler bs true (List.range' s L)
        = (chunkList bs (List.range' s L)).filter (fun b => b.length == bs) := rfl
    rw [hb, chunkList_cons bs hbs _ hne, take_range']
    have hmin : min bs L = bs := Nat.min_eq_left (by omega)
    rw [hmin]
    have hpos : (fun (b : List Nat) => b.length == bs) (List.range' s bs) = true := by
      simp [List.length_range']
    rw [@List.filter_cons_of_pos _ (fun (b : List Nat) => b.length == bs) _ _ hpos]
    rw [List.getD_cons_succ, drop_range']
    have hb2 : (chunkList bs (List.range' (s + bs) (L - bs))).filter
          (fun b => b.length == bs)
        = batchSampler bs true (List.range' (s + bs) (L - bs)) := rfl
    rw [hb2, ih (s + bs) (L - bs) (by simp only [Nat.succ_mul] at h ⊢; omega)]
    congr 1
    simp only [Nat.succ_mul]
    omega

/-! ## Scheduler state and construction

Embeds `__init__` of both samplers.  The Python constructor bodies contain
no validation and no raise: they only store the parameters and compute
`self.ranges`.  They are therefore embedded as `Except`-valued functions
that always return `.ok`, documenting that no `ConfigurationError` (nor any
other exception) can surface at construction time. -/

/-- Fields stored by `RoundRobinBatchSampler.__init__` and
`ProportionalBatchSampler.__init__` (identical bodies). -/
structure SamplerState where
  lengths : List Nat
  sranges : List (Nat × Nat)
  seed : Nat
  shuffle : Bool
  drop_last : Bool
  batch_size : Nat
  epoch : Nat
deriving Repr, DecidableEq

/-- Model of `RoundRobinBatchSampler.__init__`: stores fields, computes the
ranges, performs no checks, and never raises. -/
def roundRobinInit (lengths : List Nat) (batch_size : Nat) (drop_last : Bool)
    (seed : Nat) (shuffle : Bool) : Except String SamplerState :=
  Except.ok
    { lengths := lengths
      sranges := ranges lengths
      seed := seed
      shuffle := shuffle
      drop_last := drop_last
      batch_size := batch_size
      epoch := 0 }

/-- Model of `ProportionalBatchSampler.__init__` (same body as round-robin). -/
def proportionalInit (lengths : List Nat) (batch_size : Nat) (drop_last : Bool)
    (seed : Nat) (shuffle : Bool) : Except String SamplerState :=
  Except.ok
    { lengths := lengths
      sranges := ranges lengths
      seed := seed
      shuffle := shuffle
      drop_last := drop_last
      batch_size := batch_size
      epoch := 0 }

/-- Model of `set_epoch`. -/
def setEpoch (s : SamplerState) (e : Nat) : SamplerState := { s with epoch := e }

/-! ## Per-dataset index sequences and batchers, per pass

Embeds the `batch_samplers = [BatchSampler(SubsetRandomSampler(range(start,
end), generator=g) if self.shuffle else range(start, end), ...) for (start,
end) in self.ranges]` comprehension of both `__iter__` bodies.  With
`shuffle` the generator is consumed once per dataset, in dataset order. -/

/-- The index sequence each dataset's batcher consumes: a seeded permutation
of its range when `shuffle`, else the range in ascending order.  Threads the
generator through the datasets in construction order. -/
def buildDatasetIndices (shuffle : Bool) (g : Gen) :
    List (Nat × Nat) → List (List Nat) × Gen
  | [] => ([], g)
  | (s, e) :: rest =>
    let (idxs, g') :=
      if shuffle then randShuffle (List.range' s (e - s)) g
      else (List.range' s (e - s), g)
    let (others, g'') := buildDatasetIndices shuffle g' rest
    (idxs :: others, g'')

/-- Builds one `BatchSampler` per dataset; `BatchSampler.__init__` raises
`ValueError` for `batch_size <= 0` (in the `Nat` model: `= 0`), so the whole
pass dies with the exception if any dataset exists. -/
def buildBatchSamplers (bs : Nat) (drop_last : Bool) :
    List (List Nat) → Option (List (List (List Nat)))
  | [] => some []
  | idxs :: rest =>
    if bs = 0 then none
    else
      match buildBatchSamplers bs drop_last rest with
      | none => none
      | some bss => some (batchSampler bs drop_last idxs :: bss)

theorem buildDatasetIndices_fst_noshuffle (g : Gen) (rs : List (Nat × Nat)) :
    buildDatasetIndices false g rs
      = (rs.map (fun p => List.range' p.1 (p.2 - p.1)), g) := by
  induction rs generalizing g with
  | nil => rfl
  | cons p rest ih =>
    cases p with
    | mk s e => simp [buildDatasetIndices, ih]

theorem buildDatasetIndices_map_length (shuffle : Bool) (g : Gen) (rs : List (Nat × Nat)) :
    (buildDatasetIndices shuffle g rs).1.map List.length
      = rs.map (fun p => p.2 - p.1) := by
  induction rs generalizing g with
  | nil => rfl
  | cons p rest ih =>
    cases p with
    | mk s e =>
      cases shuffle with
      | false => simp [buildDatasetIndices, ih, List.length_range']
      | true =>
        simp [buildDatasetIndices, randShuffle_length, List.length_range', ih]

theorem buildDatasetIndices_length (shuffle : Bool) (g : Gen) (rs : List (Nat × Nat)) :
    (buildDatasetIndices shuffle g rs).1.length = rs.length := by
  have := congrArg List.length (buildDatasetIndices_map_length shuffle g rs)
  simpa using this

theorem buildBatchSamplers_pos (bs : Nat) (hbs : bs ≠ 0) (drop_last : Bool) :
    ∀ idxss, buildBatchSamplers bs drop_last idxss
      = some (idxss.map (batchSampler bs drop_last)) := by
  intro idxss
  induction idxss with
  | nil => rfl
  | cons idxs rest ih => simp [buildBatchSamplers, hbs, ih]

theorem buildBatchSamplers_zero (drop_last : Bool) (idxs : List Nat)
    (rest : List (List Nat)) :
    buildBatchSamplers 0 drop_last (idxs :: rest) = none := by
  simp [buildBatchSamplers]

/-! ## Round-robin scheduler

Embeds the loop

    for dataset_idx in cycle(range(len(batch_samplers))):
        try:
            yield next(batch_samplers[dataset_idx])
            ...
        except StopIteration:
            break

of `RoundRobinBatchSampler.__iter__`.  The mutable per-dataset iterators are
the lists of not-yet-yielded batches `st`; the cyclic counter is `i`
(dataset index `i % st.length`); `fuel` bounds the unbounded `for` and is
irrelevant as soon as it exceeds the number of remaining batches. -/

/-- Total number of batches still held by the per-dataset batchers. -/
def rrTotal (st : List (List (List Nat))) : Nat := (st.map List.length).sum

/-- One pass of the round-robin loop: yields `(batch, dataset index)` pairs,
stopping at the first exhausted batcher (`StopIteration` breaks the loop).
An empty batcher list makes `cycle(range(0))` terminate at once. -/
def rrLoop : Nat → Nat → List (List (List Nat)) → List (List Nat × Nat)
  | 0, _, _ => []
  | fuel + 1, i, st =>
    match st.getD (i % st.length) [] with
    | [] => []
    | b :: rest =>
      (b, i % st.length) :: rrLoop fuel (i + 1) (st.set (i % st.length) rest)

/-- A full round-robin pass over freshly built batchers. -/
def rrRun (st : List (List (List Nat))) : List (List Nat × Nat) :=
  rrLoop (rrTotal st + 1) 0 st

/-- Model of one full consumption of `RoundRobinBatchSampler.__iter__`:
`none` models the `ValueError` raised while building a `BatchSampler` with
`batch_size <= 0`. -/
def roundRobinIter (lengths : List Nat) (batch_size : Nat) (drop_last shuffle : Bool)
    (seed epoch : Nat) : Option (List (List Nat × Nat)) :=
  let g : Gen := seed + epoch
  let built := buildDatasetIndices shuffle g (ranges lengths)
  match buildBatchSamplers batch_size drop_last built.1 with
  | none => none
  | some st => some (rrRun st)

/-- Model of `RoundRobinBatchSampler.__len__`: `min` of the per-dataset batch
counts times the number of datasets; `min([])` raises `ValueError`, modelled
by `none`. -/
def roundRobinLen (lengths : List Nat) (batch_size : Nat) (drop_last : Bool) :
    Option Nat :=
  match lengths.map (fun length => batchSamplerLen length batch_size drop_last) with
  | [] => none
  | c :: cs => some ((cs.foldl Nat.min c) * lengths.length)

/-! ## Proportional scheduler

Embeds `ProportionalBatchSampler.__iter__`:

    lengths = [len(sampler) for sampler in batch_samplers]
    indices = [idx for idx, length in enumerate(lengths) for _ in range(length)]
    sampler = SubsetRandomSampler(indices, generator=g)
    batch_samplers = [iter(sampler) for sampler in batch_samplers]
    for dataset_idx in sampler:
        yield next(batch_samplers[dataset_idx])
        ...
-/

/-- Model of `[idx for idx, length in enumerate(counts) for _ in
range(length)]`, enumerating from `k`. -/
def weightedFrom (k : Nat) : List Nat → List Nat
  | [] => []
  | c :: cs => List.replicate c k ++ weightedFrom (k + 1) cs

/-- The weighted draw list: dataset index `i` repeated `counts[i]` times. -/
def weightedIndices (counts : List Nat) : List Nat := weightedFrom 0 counts

/-- The drain loop `for dataset_idx in sampler: yield
next(batch_samplers[dataset_idx])`; `none` models a `StopIteration` escaping
from an exhausted per-dataset batcher (a `RuntimeError` killing the pass). -/
def propLoop : List Nat → List (List (List Nat)) → Option (List (List Nat × Nat))
  | [], _ => some []
  | i :: rest, st =>
    match st.getD i [] with
    | [] => none
    | b :: bs =>
      match propLoop rest (st.set i bs) with
      | none => none
      | some out => some ((b, i) :: out)

/-- Model of one full consumption of `ProportionalBatchSampler.__iter__`. -/
def proportionalIter (lengths : List Nat) (batch_size : Nat) (drop_last shuffle : Bool)
    (seed epoch : Nat) : Option (List (List Nat × Nat)) :=
  let g : Gen := seed + epoch
  let built := buildDatasetIndices shuffle g (ranges lengths)
  match buildBatchSamplers batch_size drop_last built.1 with
  | none => none
  | some st =>
    let counts := built.1.map
      (fun idxs => batchSamplerLen idxs.length batch_size drop_last)
    propLoop (randShuffle (weightedIndices counts) built.2).1 st

/-- Model of `ProportionalBatchSampler.__len__`: sum of per-dataset batch
counts. -/
def proportionalLen (lengths : List Nat) (batch_size : Nat) (drop_last : Bool) : Nat :=
  (lengths.map (fun length => batchSamplerLen length batch_size drop_last)).sum

/-- The per-dataset batch lists a proportional pass drains (the
`batch_samplers` right after construction), exposed for the statements. -/
def proportionalBatchers (lengths : List Nat) (batch_size : Nat)
    (drop_last shuffle : Bool) (seed epoch : Nat) : List (List (List Nat)) :=
  ((buildDatasetIndices shuffle (seed + epoch) (ranges lengths)).1).map
    (batchSampler batch_size drop_last)

/-! ## Proportional drain: no exhaustion, full coverage -/

theorem weightedFrom_count (i : Nat) :
    ∀ (k : Nat) (cs : List Nat),
      (weightedFrom k cs).count i
        = if k ≤ i ∧ i - k < cs.length then cs.getD (i - k) 0 else 0 := by
  intro k cs
  induction cs generalizing k with
  | nil => simp [weightedFrom]
  | cons c rest ih =>
    simp only [weightedFrom, List.count_append, List.count_replicate, ih (k + 1),
      List.length_cons]
    rcases Nat.lt_trichotomy i k with hlt | heq | hgt
    · have h1 : (k == i) = false := by
        simp only [beq_eq_false_iff_ne, ne_eq]
        omega
      rw [if_neg (show ¬ (k + 1 ≤ i ∧ i - (k + 1) < rest.length) by omega),
        if_neg (show ¬ (k ≤ i ∧ i - k < rest.length + 1) by omega)]
      simp [h1]
    · subst heq
      rw [if_neg (show ¬ (i + 1 ≤ i ∧ i - (i + 1) < rest.length) by omega),
        if_pos (show i ≤ i ∧ i - i < rest.length + 1 by omega),
        show i - i = 0 by omega, List.getD_cons_zero]
      simp
    · have h1 : (k == i) = false := by
        simp only [beq_eq_false_iff_ne, ne_eq]
        omega
      have hik : i - k = (i - (k + 1)) + 1 := by omega
      rcases Nat.lt_or_ge (i - (k + 1)) rest.length with hin | hout
      · rw [if_pos (show k + 1 ≤ i ∧ i - (k + 1) < rest.length by omega),
          if_pos (show k ≤ i ∧ i - k < rest.length + 1 by omega), hik,
          List.getD_cons_succ]
        simp [h1]
      · rw [if_neg (show ¬ (k + 1 ≤ i ∧ i - (k + 1) < rest.length) by omega),
          if_neg (show ¬ (k ≤ i ∧ i - k < rest.length + 1) by omega)]
        simp [h1]

theorem weightedIndices_count (counts : List Nat) (i : Nat) :
    (weightedIndices counts).count i
      = if i < counts.length then counts.getD i 0 else 0 := by
  have := weightedFrom_count i 0 counts
  simpa [weightedIndices] using this

theorem weightedFrom_length (k : Nat) (cs : List Nat) :
    (weightedFrom k cs).length = cs.sum := by
  induction cs generalizing k with
  | nil => rfl
  | cons c rest ih => simp [weightedFrom, ih]

theorem weightedIndices_length (counts : List Nat) :
    (weightedIndices counts).length = counts.sum :=
  weightedFrom_length 0 counts

/-- Key drain invariant: if the draw list contains each dataset index exactly
as many times as that dataset has batches left, the drain never hits an
empty batcher, yields one batch per draw, and hands out each dataset's
batches in order, exactly once. -/
theorem propLoop_spec :
    ∀ (draws : List Nat) (st : List (List (List Nat))),
      (∀ i, draws.count i = (st.getD i []).length) →
      ∃ out, propLoop draws st = some out
        ∧ out.length = draws.length
        ∧ ∀ i, (out.filter (fun p => p.2 == i)).map Prod.fst = st.getD i [] := by
  intro draws
  induction draws with
  | nil =>
    intro st h
    refine ⟨[], rfl, rfl, ?_⟩
    intro i
    have h0 : (st.getD i []).length = 0 := by
      have := h i
      simpa using this.symm
    have he : st.getD i [] = [] := List.length_eq_zero.mp h0
    rw [he]
    rfl
  | cons d rest ih =>
    intro st h
    have hd : 0 < (st.getD d []).length := by
      have := h d
      rw [List.count_cons_self] at this
      omega
    have hdlen : d < st.length := by
      by_contra hc
      push_neg at hc
      rw [List.getD_eq_default _ _ hc] at hd
      simp at hd
    obtain ⟨b, bs, hbs⟩ : ∃ b bs, st.getD d [] = b :: bs := by
      cases hst : st.getD d [] with
      | nil => rw [hst] at hd; simp at hd
      | cons b bs => exact ⟨b, bs, rfl⟩
    have hrest : ∀ i, rest.count i = ((st.set d bs).getD i []).length := by
      intro i
      by_cases h' : i = d
      · subst h'
        have hcount := h i
        rw [List.count_cons_self] at hcount
        have hget : (st.set i bs).getD i [] = bs := by
          rw [List.getD_eq_getElem _ _ (by simp [List.length_set]; omega)]
          simp [List.getElem_set_self]
        rw [hget]
        rw [hbs] at hcount
        simp only [List.length_cons] at hcount
        omega
      · have hcount := h i
        rw [List.count_cons_of_ne h'] at hcount
        have hget : (st.set d bs).getD i [] = st.getD i [] := by
          rcases Nat.lt_or_ge i st.length with hin | hout
          · rw [List.getD_eq_getElem _ _ (by simp [List.length_set]; omega),
              List.getD_eq_getElem _ _ hin]
            exact List.getElem_set_ne (by omega) _
          · rw [List.getD_eq_default _ _ (by simp [List.length_set]; omega),
              List.getD_eq_default _ _ hout]
        rw [hget]
        exact hcount
    obtain ⟨out, hout, hlen, hfilter⟩ := ih (st.set d bs) hrest
    refine ⟨(b, d) :: out, ?_, by simp [hlen], ?_⟩
    · simp only [propLoop, hbs, hout]
    · intro i
      by_cases h' : i = d
      · subst h'
        have hpos : (fun (p : List Nat × Nat) => p.2 == i) (b, i) = true := by simp
        rw [@List.filter_cons_of_pos _ (fun (p : List Nat × Nat) => p.2 == i) _ _ hpos]
        simp only [List.map_cons, hfilter i]
        have hget : (st.set i bs).getD i [] = bs := by
          rw [List.getD_eq_getElem _ _ (by simp [List.length_set]; omega)]
          simp [List.getElem_set_self]
        rw [hget, hbs]
      · have hneg : ¬ ((fun (p : List Nat × Nat) => p.2 == i) (b, d) = true) := by
          simp
          omega
        rw [@List.filter_cons_of_neg _ (fun (p : List Nat × Nat) => p.2 == i) _ _ hneg]
        rw [hfilter i]
        rcases Nat.lt_or_ge i st.length with hin | hout
        · rw [List.getD_eq_getElem _ _ (by simp [List.length_set]; omega),
            List.getD_eq_getElem _ _ hin]
          exact List.getElem_set_ne (by omega) _
        · rw [List.getD_eq_default _ _ (by simp [List.length_set]; omega),
            List.getD_eq_default _ _ hout]

theorem proportional_counts (lengths : List Nat) (bs : Nat) (dl sh : Bool) (g : Gen) :
    ((buildDatasetIndices sh g (ranges lengths)).1).map
        (fun idxs => batchSamplerLen idxs.length bs dl)
      = lengths.map (fun length => batchSamplerLen length bs dl) := by
  have h1 : (buildDatasetIndices sh g (ranges lengths)).1.map List.length = lengths := by
    rw [buildDatasetIndices_map_length, ranges_map_sub]
  have h2 : ((buildDatasetIndices sh g (ranges lengths)).1).map
        (fun idxs => batchSamplerLen idxs.length bs dl)
      = ((buildDatasetIndices sh g (ranges lengths)).1.map List.length).map
        (fun length => batchSamplerLen length bs dl) := by
    rw [List.map_map]
    rfl
  rw [h2, h1]

theorem proportionalIter_eq (lengths : List Nat) (bs : Nat) (dl sh : Bool)
    (seed epoch : Nat) (hbs : bs ≠ 0) :
    proportionalIter lengths bs dl sh seed epoch
      = propLoop
          (randShuffle
            (weightedIndices (lengths.map (fun length => batchSamplerLen length bs dl)))
            ((buildDatasetIndices sh (seed + epoch) (ranges lengths)).2)).1
          (proportionalBatchers lengths bs dl sh seed epoch) := by
  unfold proportionalIter proportionalBatchers
  dsimp only
  rw [buildBatchSamplers_pos bs hbs dl, proportional_counts]

theorem getD_map_batchSampler (bs : Nat) (dl : Bool) (idxss : List (List Nat)) (i : Nat) :
    (idxss.map (batchSampler bs dl)).getD i []
      = if i < idxss.length then batchSampler bs dl (idxss.getD i []) else [] := by
  rcases Nat.lt_or_ge i idxss.length with hin | hout
  · rw [if_pos hin, List.getD_eq_getElem _ _ (by simpa using hin),
      List.getD_eq_getElem _ _ hin, List.getElem_map]
  · rw [if_neg (by omega), List.getD_eq_default _ _ (by simpa using hout)]

theorem idxss_getD_length (lengths : List Nat) (sh : Bool) (g : Gen) (i : Nat)
    (hi : i < lengths.length) :
    ((buildDatasetIndices sh g (ranges lengths)).1.getD i []).length
      = lengths.getD i 0 := by
  have hmap : (buildDatasetIndices sh g (ranges lengths)).1.map List.length = lengths := by
    rw [buildDatasetIndices_map_length, ranges_map_sub]
  have hlen : (buildDatasetIndices sh g (ranges lengths)).1.length = lengths.length := by
    rw [buildDatasetIndices_length, ranges_length]
  have h1 : lengths.getD i 0
      = ((buildDatasetIndices sh g (ranges lengths)).1.map List.length).getD i 0 := by
    rw [hmap]
  rw [List.getD_eq_getElem _ _ (show
      i < (buildDatasetIndices sh g (ranges lengths)).1.length by omega), h1,
    List.getD_eq_getElem _ _ (by rw [List.length_map]; omega), List.getElem_map]

/-- One full proportional pass: no batcher is ever exhausted early
(`propLoop` returns `some`), the pass yields exactly `proportionalLen`
batches, and every dataset's batcher is drained completely, its batches
appearing exactly once and in order. -/
theorem proportional_pass (lengths : List Nat) (bs : Nat) (dl sh : Bool)
    (seed epoch : Nat) (hbs : 0 < bs) :
    ∃ out, proportionalIter lengths bs dl sh seed epoch = some out
      ∧ out.length = proportionalLen lengths bs dl
      ∧ ∀ i, (out.filter (fun p => p.2 == i)).map Prod.fst
          = (proportionalBatchers lengths bs dl sh seed epoch).getD i [] := by
  have hbs' : bs ≠ 0 := by omega
  have hlen1 : (buildDatasetIndices sh (seed + epoch) (ranges lengths)).1.length
      = lengths.length := by
    rw [buildDatasetIndices_length, ranges_length]
  have hcnt : ∀ i,
      ((randShuffle
          (weightedIndices (lengths.map (fun length => batchSamplerLen length bs dl)))
          ((buildDatasetIndices sh (seed + epoch) (ranges lengths)).2)).1).count i
        = ((proportionalBatchers lengths bs dl sh seed epoch).getD i []).length := by
    intro i
    rw [(randShuffle_perm _ _).count_eq i, weightedIndices_count]
    unfold proportionalBatchers
    rw [getD_map_batchSampler]
    rcases Nat.lt_or_ge i lengths.length with hin | hout
    · rw [if_pos (by simpa using hin), if_pos (by omega)]
      rw [batchSampler_length bs hbs dl, idxss_getD_length lengths sh _ i hin]
      rw [List.getD_eq_getElem _ _ (by simpa using hin),
        List.getD_eq_getElem _ _ hin, List.getElem_map]
    · rw [if_neg (by simpa using (show ¬ i < lengths.length by omega)),
        if_neg (by omega)]
      rfl
  obtain ⟨out, hout, houtlen, hfilter⟩ := propLoop_spec _ _ hcnt
  refine ⟨out, ?_, ?_, hfilter⟩
  · rw [proportionalIter_eq lengths bs dl sh seed epoch hbs', hout]
  · rw [houtlen, randShuffle_length, weightedIndices_length]
    rfl

/-! ## Round-robin characterization

`rrLoop` starting from position `k` on the state in which dataset `i` has
already yielded `served n k i` batches produces exactly the batches at
positions `k, k+1, ...` of the ideal cyclic schedule, up to the first
position `B` at which the scheduled dataset is exhausted. -/

/-- How many batches dataset `i` has yielded after `k` round-robin turns. -/
def served (n k i : Nat) : Nat := k / n + if i < k % n then 1 else 0

/-- The per-dataset batcher state after `k` round-robin turns. -/
def stateAt (st0 : List (List (List Nat))) (n k : Nat) : List (List (List Nat)) :=
  (List.range n).map (fun i => (st0.getD i []).drop (served n k i))

theorem stateAt_length (st0 : List (List (List Nat))) (n k : Nat) :
    (stateAt st0 n k).length = n := by
  simp [stateAt]

theorem stateAt_getD (st0 : List (List (List Nat))) (n k i : Nat) (hi : i < n) :
    (stateAt st0 n k).getD i [] = (st0.getD i []).drop (served n k i) := by
  rw [List.getD_eq_getElem _ _ (by simpa [stateAt] using hi)]
  simp only [stateAt, List.getElem_map, List.getElem_range]

theorem stateAt_zero (st0 : List (List (List Nat))) (n : Nat) (hlen : st0.length = n) :
    stateAt st0 n 0 = st0 := by
  apply List.ext_getElem
  · simp [stateAt, hlen]
  · intro j h1 h2
    have hj : j < n := by simpa [stateAt] using h1
    simp only [stateAt, List.getElem_map, List.getElem_range]
    have hserved : served n 0 j = 0 := by
      unfold served
      simp
    rw [hserved, List.drop_zero, List.getD_eq_getElem _ _ h2]

theorem served_step (n k i : Nat) (hn : 0 < n) (hi : i < n) :
    served n (k + 1) i = served n k i + (if i = k % n then 1 else 0) := by
  have hdm := Nat.div_add_mod k n
  have hr : k % n < n := Nat.mod_lt _ hn
  rcases Nat.lt_or_ge (k % n + 1) n with hlt | hge
  · have hdiv : (k + 1) / n = k / n := by
      conv_lhs => rw [show k + 1 = (k % n + 1) + n * (k / n) by omega]
      rw [Nat.add_mul_div_left _ _ hn, Nat.div_eq_of_lt hlt]
      omega
    have hmod : (k + 1) % n = k % n + 1 := by
      conv_lhs => rw [show k + 1 = (k % n + 1) + n * (k / n) by omega]
      rw [Nat.add_mul_mod_self_left, Nat.mod_eq_of_lt hlt]
    unfold served
    rw [hdiv, hmod]
    split_ifs <;> omega
  · have he : k + 1 = n * (k / n + 1) := by
      rw [Nat.mul_succ]
      omega
    have hdiv : (k + 1) / n = k / n + 1 := by
      rw [he, Nat.mul_div_cancel_left _ hn]
    have hmod : (k + 1) % n = 0 := by
      rw [he, Nat.mul_mod_right]
    unfold served
    rw [hdiv, hmod]
    split_ifs <;> omega

theorem stateAt_succ (st0 : List (List (List Nat))) (n k : Nat) (hn : 0 < n) :
    (stateAt st0 n k).set (k % n) ((st0.getD (k % n) []).drop (k / n + 1))
      = stateAt st0 n (k + 1) := by
  apply List.ext_getElem
  · simp [stateAt, List.length_set]
  · intro j h1 h2
    have hj : j < n := by simpa [stateAt, List.length_set] using h1
    rw [List.getElem_set]
    simp only [stateAt, List.getElem_map, List.getElem_range]
    by_cases hjk : k % n = j
    · rw [if_pos hjk]
      subst hjk
      have h3 : served n (k + 1) (k % n) = k / n + 1 := by
        rw [served_step n k _ hn (Nat.mod_lt _ hn), if_pos rfl]
        unfold served
        rw [if_neg (Nat.lt_irrefl _)]
      rw [h3]
    · rw [if_neg hjk]
      have h3 : served n (k + 1) j = served n k j := by
        rw [served_step n k j hn hj, if_neg (by omega)]
        omega
      rw [h3]

theorem rrTotal_set (st : List (List (List Nat))) (i : Nat) (x : List (List Nat))
    (hi : i < st.length) :
    rrTotal (st.set i x) + (st.getD i []).length = rrTotal st + x.length := by
  induction st generalizing i with
  | nil => simp at hi
  | cons s rest ih =>
    cases i with
    | zero =>
      simp only [List.set_cons_zero, rrTotal, List.map_cons, List.sum_cons,
        List.getD_cons_zero]
      omega
    | succ j =>
      have hj : j < rest.length := by simpa using hi
      simp only [List.set_cons_succ, rrTotal, List.map_cons, List.sum_cons,
        List.getD_cons_succ]
      have := ih j hj
      simp only [rrTotal] at this
      omega

theorem rrLoop_stop (fuel i : Nat) (st : List (List (List Nat)))
    (h : st.getD (i % st.length) [] = []) : rrLoop (fuel + 1) i st = [] := by
  simp only [rrLoop, h]

theorem rrLoop_step (fuel i : Nat) (st : List (List (List Nat))) (b : List Nat)
    (rest : List (List Nat)) (h : st.getD (i % st.length) [] = b :: rest) :
    rrLoop (fuel + 1) i st
      = (b, i % st.length) :: rrLoop fuel (i + 1) (st.set (i % st.length) rest) := by
  simp only [rrLoop, h]

/-- Characterization of the round-robin loop: starting at turn `k` with the
state after `k` turns, the loop emits exactly the ideal cyclic schedule up
to the first turn `B` whose scheduled dataset is exhausted, then stops. -/
theorem rrLoop_eq (st0 : List (List (List Nat))) (n B : Nat)
    (hn : 0 < n) (hlen : st0.length = n)
    (hstop : (st0.getD (B % n) []).length ≤ B / n) :
    ∀ (fuel k : Nat), rrTotal (stateAt st0 n k) < fuel → k ≤ B →
      (∀ k', k ≤ k' → k' < B → k' / n < (st0.getD (k' % n) []).length) →
      rrLoop fuel k (stateAt st0 n k)
        = (List.range' k (B - k)).map
            (fun j => ((st0.getD (j % n) []).getD (j / n) [], j % n)) := by
  intro fuel
  induction fuel with
  | zero =>
    intro k hfuel _ _
    exact absurd hfuel (Nat.not_lt_zero _)
  | succ fuel ih =>
    intro k hfuel hkB hsucc
    have hstlen : (stateAt st0 n k).length = n := stateAt_length st0 n k
    have hmodlt : k % n < n := Nat.mod_lt _ hn
    have hmod : k % (stateAt st0 n k).length = k % n := by rw [hstlen]
    have hget : (stateAt st0 n k).getD (k % n) []
        = (st0.getD (k % n) []).drop (k / n) := by
      rw [stateAt_getD st0 n k _ hmodlt]
      have : served n k (k % n) = k / n := by
        unfold served
        rw [if_neg (Nat.lt_irrefl _)]
        omega
      rw [this]
    rcases Nat.eq_or_lt_of_le hkB with heq | hlt
    · subst heq
      have hnil : (stateAt st0 n k).getD (k % (stateAt st0 n k).length) [] = [] := by
        rw [hmod, hget]
        exact List.drop_eq_nil_of_le hstop
      rw [rrLoop_stop fuel k _ hnil, Nat.sub_self]
      rfl
    · have hk : k / n < (st0.getD (k % n) []).length := hsucc k (Nat.le_refl k) hlt
      have hcons : (stateAt st0 n k).getD (k % (stateAt st0 n k).length) []
          = (st0.getD (k % n) []).getD (k / n) []
            :: (st0.getD (k % n) []).drop (k / n + 1) := by
        rw [hmod, hget, List.drop_eq_getElem_cons hk,
          List.getD_eq_getElem _ _ hk]
      rw [rrLoop_step fuel k _ _ _ hcons, hmod]
      have hset : (stateAt st0 n k).set (k % n)
            ((st0.getD (k % n) []).drop (k / n + 1))
          = stateAt st0 n (k + 1) := stateAt_succ st0 n k hn
      rw [hset]
      have hfuel' : rrTotal (stateAt st0 n (k + 1)) < fuel := by
        have hts := rrTotal_set (stateAt st0 n k) (k % n)
          ((st0.getD (k % n) []).drop (k / n + 1)) (by omega)
        rw [hset, hget] at hts
        have hd1 : ((st0.getD (k % n) []).drop (k / n)).length
            = (st0.getD (k % n) []).length - k / n := List.length_drop _ _
        have hd2 : ((st0.getD (k % n) []).drop (k / n + 1)).length
            = (st0.getD (k % n) []).length - (k / n + 1) := List.length_drop _ _
        omega
      rw [ih (k + 1) hfuel' hlt (fun k' h1 h2 => hsucc k' (by omega) h2)]
      have hrange : List.range' k (B - k)
          = k :: List.range' (k + 1) (B - (k + 1)) := by
        have : B - k = (B - (k + 1)) + 1 := by omega
        rw [this]
        rfl
      rw [hrange]
      rfl

/-- Every nonempty round-robin pass follows the ideal cyclic schedule up to
the first turn whose dataset is exhausted. -/
theorem rrRun_eq (st0 : List (List (List Nat))) (hn : 0 < st0.length) :
    ∃ B, rrRun st0
        = (List.range B).map
            (fun j => ((st0.getD (j % st0.length) []).getD (j / st0.length) [],
              j % st0.length))
      ∧ (∀ k, k < B → k / st0.length < (st0.getD (k % st0.length) []).length)
      ∧ (st0.getD (B % st0.length) []).length ≤ B / st0.length := by
  have hex : ∃ k, (st0.getD (k % st0.length) []).length ≤ k / st0.length := by
    refine ⟨st0.length * (st0.getD 0 []).length, ?_⟩
    rw [Nat.mul_mod_right, Nat.mul_div_cancel_left _ hn]
  refine ⟨Nat.find hex, ?_, ?_, Nat.find_spec hex⟩
  · have h0 : stateAt st0 st0.length 0 = st0 := stateAt_zero st0 st0.length rfl
    have := rrLoop_eq st0 st0.length (Nat.find hex) hn rfl (Nat.find_spec hex)
      (rrTotal st0 + 1) 0 (by rw [h0]; omega) (Nat.zero_le _)
      (fun k' _ h2 => by
        have := Nat.find_min hex h2
        omega)
    rw [h0] at this
    unfold rrRun
    rw [this, Nat.sub_zero, List.range_eq_range']
  · intro k hk
    have := Nat.find_min hex hk
    omega

/-- The per-dataset batch lists a round-robin pass serves from. -/
def roundRobinBatchers (lengths : List Nat) (batch_size : Nat)
    (drop_last shuffle : Bool) (seed epoch : Nat) : List (List (List Nat)) :=
  ((buildDatasetIndices shuffle (seed + epoch) (ranges lengths)).1).map
    (batchSampler batch_size drop_last)

theorem roundRobinIter_eq (lengths : List Nat) (bs : Nat) (dl sh : Bool)
    (seed epoch : Nat) (hbs : bs ≠ 0) :
    roundRobinIter lengths bs dl sh seed epoch
      = some (rrRun (roundRobinBatchers lengths bs dl sh seed epoch)) := by
  unfold roundRobinIter roundRobinBatchers
  dsimp only
  rw [buildBatchSamplers_pos bs hbs dl]

theorem roundRobinBatchers_length (lengths : List Nat) (bs : Nat) (dl sh : Bool)
    (seed epoch : Nat) :
    (roundRobinBatchers lengths bs dl sh seed epoch).length = lengths.length := by
  unfold roundRobinBatchers
  rw [List.length_map, buildDatasetIndices_length, ranges_length]

theorem roundRobinBatchers_getD_length (lengths : List Nat) (bs : Nat) (dl sh : Bool)
    (seed epoch : Nat) (i : Nat) (hbs : 0 < bs) (hi : i < lengths.length) :
    ((roundRobinBatchers lengths bs dl sh seed epoch).getD i []).length
      = batchSamplerLen (lengths.getD i 0) bs dl := by
  unfold roundRobinBatchers
  rw [getD_map_batchSampler]
  have hlen : (buildDatasetIndices sh (seed + epoch) (ranges lengths)).1.length
      = lengths.length := by
    rw [buildDatasetIndices_length, ranges_length]
  rw [if_pos (by omega), batchSampler_length bs hbs dl,
    idxss_getD_length lengths sh _ i hi]

/-! ## Dispatch notification

Embeds the loop body shared by both `__iter__`s:

    yield next(batch_samplers[dataset_idx])
    if self.trainer and self.trainer.training_with_dataset_dict:
        self.trainer.dataset_name = self.trainer.dataset_names[dataset_idx]

The write to `trainer.dataset_name` sits *after* the `yield`, so it executes
only when the consumer resumes the generator to request the next batch.  The
pass is modelled as the event trace a full consumption produces: each loop
iteration contributes its yield event followed by its (conditional) write
event. -/

/-- The externally observable fields of the attached trainer. -/
structure Trainer where
  training_with_dataset_dict : Bool
  dataset_names : List String
  dataset_name : String
deriving Repr, DecidableEq

/-- One observable step of a scheduler pass. -/
inductive SchedEvent where
  | yieldBatch (batch : List Nat) (dataset_idx : Nat) : SchedEvent
  | writeName (name : String) : SchedEvent
deriving Repr, DecidableEq

/-- The event trace of fully consuming a pass whose yielded sequence is
`out`: per loop iteration, the yield followed by the `dataset_name` write
(present only when a trainer with the flag set is attached). -/
def passTrace (trainer : Option Trainer) (out : List (List Nat × Nat)) :
    List SchedEvent :=
  out.flatMap (fun p =>
    SchedEvent.yieldBatch p.1 p.2 ::
      (match trainer with
       | none => []
       | some t =>
         if t.training_with_dataset_dict then
           [SchedEvent.writeName (t.dataset_names.getD p.2 "")]
         else []))

/-- The value held by `trainer.dataset_name` at the moment the consumer
receives the `k`-th yielded batch (counting from 0): the slot starts at
`init` and each write event before that yield overwrites it. -/
def slotWhenYield (init : String) : Nat → List SchedEvent → String
  | _, [] => init
  | k, SchedEvent.writeName nm :: evs => slotWhenYield nm k evs
  | 0, SchedEvent.yieldBatch _ _ :: _ => init
  | k + 1, SchedEvent.yieldBatch _ _ :: evs => slotWhenYield init k evs

/-! ## Claim theorems -/

theorem lt_ceilDiv_iff (bs L j : Nat) (hbs : 0 < bs) :
    j < (L + bs - 1) / bs ↔ j * bs < L := by
  rw [Nat.lt_iff_add_one_le, Nat.le_div_iff_mul_le hbs]
  have hsm : (j + 1) * bs = j * bs + bs := Nat.succ_mul j bs
  omega

/-- C1 (code bug): the number of batches a round-robin pass actually yields
does not always equal `__len__`.  On `lengths = [6, 4]`, `batch_size = 2`,
`drop_last = false`, `shuffle = false`, the pass yields 5 batches (the first
exhaustion is only discovered at dataset 1's turn in the third cycle) while
`__len__` returns `min(3, 2) * 2 = 4`. -/
theorem C1_roundRobin_len_mismatch :
    roundRobinIter [6, 4] 2 false false 0 0
        = some [([0, 1], 0), ([6, 7], 1), ([2, 3], 0), ([8, 9], 1), ([4, 5], 0)]
    ∧ roundRobinLen [6, 4] 2 false = some 4
    ∧ ((roundRobinIter [6, 4] 2 false false 0 0).getD []).length = 5 := by
  refine ⟨by decide, by decide, by decide⟩

/-- C2: one full proportional pass never pulls from an exhausted batcher,
yields exactly `proportionalLen` batches (the sum of the per-dataset batch
counts), and drains every dataset's batcher completely, the batches tagged
`i` being exactly dataset `i`'s batch list, in order. -/
theorem C2_proportional_full_pass (lengths : List Nat) (bs : Nat) (dl sh : Bool)
    (seed epoch : Nat) (i : Nat) (hbs : 0 < bs) :
    (proportionalIter lengths bs dl sh seed epoch).isSome = true
    ∧ ((proportionalIter lengths bs dl sh seed epoch).getD []).length
        = proportionalLen lengths bs dl
    ∧ (((proportionalIter lengths bs dl sh seed epoch).getD []).filter
          (fun p => p.2 == i)).map Prod.fst
        = (proportionalBatchers lengths bs dl sh seed epoch).getD i [] := by
  obtain ⟨out, hout, hlen, hfilter⟩ :=
    proportional_pass lengths bs dl sh seed epoch hbs
  rw [hout]
  exact ⟨rfl, by simpa using hlen, by simpa using hfilter i⟩

theorem C2_witness :
    (proportionalIter [4, 6] 2 false false 0 0).isSome = true
    ∧ ((proportionalIter [4, 6] 2 false false 0 0).getD []).length
        = proportionalLen [4, 6] 2 false
    ∧ (((proportionalIter [4, 6] 2 false false 0 0).getD []).filter
          (fun p => p.2 == 1)).map Prod.fst
        = (proportionalBatchers [4, 6] 2 false false 0 0).getD 1 [] :=
  C2_proportional_full_pass [4, 6] 2 false false 0 0 1 (by decide)

/-- C3: a round-robin pass serves datasets in strictly ascending cyclic
order `0, 1, ..., n-1, 0, 1, ...` (turn `k` serves dataset `k mod n` with
that dataset's next unconsumed batch), every turn before the end of the
pass found a non-exhausted batcher, and the pass ends exactly at the first
turn whose scheduled dataset is exhausted: that dataset's batch count
equals the number of full cycles completed, and nothing is yielded after
it, not even from still-nonempty datasets. -/
theorem C3_roundRobin_cyclic_then_stop (lengths : List Nat) (bs : Nat) (dl sh : Bool)
    (seed epoch : Nat) (out : List (List Nat × Nat)) (k : Nat)
    (hbs : 0 < bs) (hout : roundRobinIter lengths bs dl sh seed epoch = some out) :
    (k < out.length →
        (out.getD k ([], 0)).2 = k % lengths.length
        ∧ (out.getD k ([], 0)).1
            = ((roundRobinBatchers lengths bs dl sh seed epoch).getD
                (k % lengths.length) []).getD (k / lengths.length) []
        ∧ k / lengths.length
            < batchSamplerLen (lengths.getD (k % lengths.length) 0) bs dl)
    ∧ (0 < lengths.length →
        batchSamplerLen (lengths.getD (out.length % lengths.length) 0) bs dl
          = out.length / lengths.length) := by
  have hbs' : bs ≠ 0 := by omega
  rw [roundRobinIter_eq lengths bs dl sh seed epoch hbs'] at hout
  have hout' : rrRun (roundRobinBatchers lengths bs dl sh seed epoch) = out :=
    Option.some.inj hout
  have hstlen : (roundRobinBatchers lengths bs dl sh seed epoch).length
      = lengths.length := roundRobinBatchers_length lengths bs dl sh seed epoch
  rcases Nat.eq_zero_or_pos lengths.length with hn0 | hn
  · have hst0 : roundRobinBatchers lengths bs dl sh seed epoch = [] :=
      List.length_eq_zero.mp (by omega)
    have hempty : out = [] := by
      rw [← hout', hst0]
      rfl
    constructor
    · intro hk
      rw [hempty] at hk
      simp at hk
    · intro hn'
      omega
  · obtain ⟨B, hB, hlt, hstop⟩ := rrRun_eq
      (roundRobinBatchers lengths bs dl sh seed epoch) (by omega)
    rw [hstlen] at hB hlt hstop
    rw [hB] at hout'
    have houtlen : out.length = B := by
      rw [← hout', List.length_map, List.length_range]
    have hgetk : ∀ k', k' < B →
        out.getD k' ([], 0)
          = (((roundRobinBatchers lengths bs dl sh seed epoch).getD
              (k' % lengths.length) []).getD (k' / lengths.length) [],
            k' % lengths.length) := by
      intro k' hk'
      rw [← hout',
        List.getD_eq_getElem _ _ (by
          rw [List.length_map, List.length_range]
          omega),
        List.getElem_map, List.getElem_range]
    constructor
    · intro hk
      rw [houtlen] at hk
      have hg := hgetk k hk
      have hmodlt : k % lengths.length < lengths.length := Nat.mod_lt _ hn
      refine ⟨by rw [hg], by rw [hg], ?_⟩
      have hb := hlt k hk
      rw [roundRobinBatchers_getD_length lengths bs dl sh seed epoch _ hbs hmodlt] at hb
      exact hb
    · intro hn'
      rw [houtlen]
      rw [← roundRobinBatchers_getD_length lengths bs dl sh seed epoch _ hbs
        (Nat.mod_lt _ hn)]
      rcases Nat.lt_or_ge B lengths.length with hBlt | hBge
      · have hd0 : B / lengths.length = 0 := Nat.div_eq_of_lt hBlt
        omega
      · have hk := hlt (B - lengths.length) (by omega)
        have hmodeq : (B - lengths.length) % lengths.length = B % lengths.length := by
          conv_rhs => rw [show B = (B - lengths.length) + lengths.length by omega]
          rw [Nat.add_mod_right]
        have hdiveq : B / lengths.length
            = (B - lengths.length) / lengths.length + 1 := by
          conv_lhs => rw [show B = (B - lengths.length) + lengths.length by omega]
          rw [Nat.add_div_right _ hn]
        rw [hmodeq] at hk
        omega

theorem C3_witness :
    (1 < ([([0, 1], 0), ([4, 5], 1), ([2, 3], 0), ([6, 7], 1)] :
          List (List Nat × Nat)).length →
        (([([0, 1], 0), ([4, 5], 1), ([2, 3], 0), ([6, 7], 1)] :
            List (List Nat × Nat)).getD 1 ([], 0)).2 = 1 % ([4, 6] : List Nat).length
        ∧ (([([0, 1], 0), ([4, 5], 1), ([2, 3], 0), ([6, 7], 1)] :
            List (List Nat × Nat)).getD 1 ([], 0)).1
            = ((roundRobinBatchers [4, 6] 2 false false 0 0).getD
                (1 % ([4, 6] : List Nat).length) []).getD
                (1 / ([4, 6] : List Nat).length) []
        ∧ 1 / ([4, 6] : List Nat).length
            < batchSamplerLen (([4, 6] : List Nat).getD
                (1 % ([4, 6] : List Nat).length) 0) 2 false)
    ∧ (0 < ([4, 6] : List Nat).length →
        batchSamplerLen (([4, 6] : List Nat).getD
            (([([0, 1], 0), ([4, 5], 1), ([2, 3], 0), ([6, 7], 1)] :
              List (List Nat × Nat)).length % ([4, 6] : List Nat).length) 0) 2 false
          = ([([0, 1], 0), ([4, 5], 1), ([2, 3], 0), ([6, 7], 1)] :
              List (List Nat × Nat)).length / ([4, 6] : List Nat).length) :=
  C3_roundRobin_cyclic_then_stop [4, 6] 2 false false 0 0
    [([0, 1], 0), ([4, 5], 1), ([2, 3], 0), ([6, 7], 1)] 1 (by decide) (by decide)

/-- C4: both schedulers are deterministic functions of the construction
parameters together with `seed + epoch`: two passes with the same lengths,
batch size, drop-last, shuffle flag and the same derived seed produce
identical `(batch, dataset index)` sequences.  Identical seed and identical
epoch is the special case `seed1 = seed2`, `epoch1 = epoch2`. -/
theorem C4_deterministic (lengths : List Nat) (bs : Nat) (dl sh : Bool)
    (seed1 epoch1 seed2 epoch2 : Nat) (h : seed1 + epoch1 = seed2 + epoch2) :
    roundRobinIter lengths bs dl sh seed1 epoch1
        = roundRobinIter lengths bs dl sh seed2 epoch2
    ∧ proportionalIter lengths bs dl sh seed1 epoch1
        = proportionalIter lengths bs dl sh seed2 epoch2 := by
  unfold roundRobinIter proportionalIter
  rw [h]
  exact ⟨rfl, rfl⟩

theorem C4_witness :
    roundRobinIter [2, 1] 1 false true 5 2 = roundRobinIter [2, 1] 1 false true 3 4
    ∧ proportionalIter [2, 1] 1 false true 5 2
        = proportionalIter [2, 1] 1 false true 3 4 :=
  C4_deterministic [2, 1] 1 false true 5 2 3 4 rfl

/-- C5: range `i` is `(sum of lengths[0..i), sum of lengths[0..i])`, each
range starts where the previous one ends, there is one range per dataset,
and concatenating the ranges' index intervals in order yields exactly
`[0, sum lengths)` (so the ranges are non-overlapping, ordered, and cover
the global index space). -/
theorem C5_ranges_partition (lengths : List Nat) (i : Nat) (hi : i < lengths.length) :
    (ranges lengths).getD i (0, 0)
        = ((lengths.take i).sum, (lengths.take (i + 1)).sum)
    ∧ (i + 1 < lengths.length →
        ((ranges lengths).getD (i + 1) (0, 0)).1 = ((ranges lengths).getD i (0, 0)).2)
    ∧ (ranges lengths).flatMap (fun p => List.range' p.1 (p.2 - p.1))
        = List.range lengths.sum
    ∧ (ranges lengths).length = lengths.length := by
  refine ⟨ranges_getD lengths i hi, ?_, ranges_bind lengths, ranges_length lengths⟩
  intro h2
  rw [ranges_getD lengths (i + 1) h2, ranges_getD lengths i hi]

theorem C5_witness :
    (ranges [4, 6]).getD 0 (0, 0)
        = ((([4, 6] : List Nat).take 0).sum, (([4, 6] : List Nat).take 1).sum)
    ∧ (0 + 1 < ([4, 6] : List Nat).length →
        ((ranges [4, 6]).getD (0 + 1) (0, 0)).1 = ((ranges [4, 6]).getD 0 (0, 0)).2)
    ∧ (ranges [4, 6]).flatMap (fun p => List.range' p.1 (p.2 - p.1))
        = List.range (([4, 6] : List Nat).sum)
    ∧ (ranges [4, 6]).length = ([4, 6] : List Nat).length :=
  C5_ranges_partition [4, 6] 0 (by decide)

/-- C6 counterexample: the claim asserts that invalid configurations raise a
`ConfigurationError` at construction.  In the code, both `__init__` bodies
contain no validation at all: constructing with `batch_size = 0` (and with
any notifier) succeeds and raises nothing. -/
theorem C6_counterexample :
    (roundRobinInit [2] 0 false 0 true).isOk = true
    ∧ (proportionalInit [2] 0 false 0 true).isOk = true := by
  exact ⟨rfl, rfl⟩

/-- C6 amended: no validation happens at construction - `__init__` always
succeeds, even with `batch_size = 0`; an invalid batch size surfaces only
when iteration begins (torch's `BatchSampler.__init__`, run at the start of
a pass, raises `ValueError`), and then only if at least one dataset exists;
negative lengths and notifier name-count mismatches are never checked at
construction. -/
theorem C6_no_construction_validation (lengths : List Nat) (bs : Nat) (dl sh : Bool)
    (seed epoch : Nat) (hbs : bs = 0) (hne : lengths ≠ []) :
    (roundRobinInit lengths bs dl seed sh).isOk = true
    ∧ (proportionalInit lengths bs dl seed sh).isOk = true
    ∧ roundRobinIter lengths bs dl sh seed epoch = none
    ∧ proportionalIter lengths bs dl sh seed epoch = none := by
  subst hbs
  have hlen : (buildDatasetIndices sh (seed + epoch) (ranges lengths)).1.length
      = lengths.length := by
    rw [buildDatasetIndices_length, ranges_length]
  obtain ⟨idxs, rest, hcons⟩ : ∃ a r,
      (buildDatasetIndices sh (seed + epoch) (ranges lengths)).1 = a :: r := by
    cases h : (buildDatasetIndices sh (seed + epoch) (ranges lengths)).1 with
    | nil =>
      rw [h] at hlen
      cases lengths with
      | nil => exact absurd rfl hne
      | cons x xs => simp at hlen
    | cons a r => exact ⟨a, r, rfl⟩
  refine ⟨rfl, rfl, ?_, ?_⟩
  · unfold roundRobinIter
    dsimp only
    rw [hcons, buildBatchSamplers_zero]
  · unfold proportionalIter
    dsimp only
    rw [hcons, buildBatchSamplers_zero]

theorem C6_witness :
    (roundRobinInit [2] 0 false 0 true).isOk = true
    ∧ (proportionalInit [2] 0 false 0 true).isOk = true
    ∧ roundRobinIter [2] 0 false true 0 0 = none
    ∧ proportionalIter [2] 0 false true 0 0 = none :=
  C6_no_construction_validation [2] 0 false true 0 0 rfl (by decide)

/-- C7 (code bug): the write of the source dataset's display name into
`trainer.dataset_name` sits after the `yield`, so it only executes when the
consumer requests the following batch.  On `lengths = [2, 2]`,
`batch_size = 2`, `shuffle = false`, with names `["first", "second"]`, the
pass yields batch 0 from dataset 0 and batch 1 from dataset 1; at the moment
the consumer receives batch 1 the slot still holds "first" (dataset 0's
name, written while fetching batch 1), not "second" as the claim requires. -/
theorem C7_notification_lags_one_batch :
    roundRobinIter [2, 2] 2 false false 0 0 = some [([0, 1], 0), ([2, 3], 1)]
    ∧ slotWhenYield "" 1
        (passTrace (some ⟨true, ["first", "second"], ""⟩)
          [([0, 1], 0), ([2, 3], 1)])
        = "first"
    ∧ (["first", "second"] : List String).getD
        (([([0, 1], 0), ([2, 3], 1)] : List (List Nat × Nat)).getD 1 ([], 0)).2 ""
        = "second" := by
  refine ⟨by decide, by decide, by decide⟩

/-- C8: with shuffle off, a dataset's batcher chunks its range in ascending
order: batch `j` is the run of `bs` consecutive indices starting at
`start + j * bs` (the final batch shorter exactly when `drop_last` is false
and `bs` does not divide `L`); the batch count is `L / bs` rounded down with
drop-last and up without; and a dataset with zero usable batches
contributes an empty sequence. -/
theorem C8_batcher_ascending_chunks (s L bs : Nat) (dl : Bool) (j : Nat)
    (hbs : 0 < bs) :
    (batchSampler bs dl (List.range' s L)).length = batchSamplerLen L bs dl
    ∧ (j < (batchSampler bs dl (List.range' s L)).length →
        (batchSampler bs dl (List.range' s L)).getD j []
          = List.range' (s + j * bs) (min bs (L - j * bs)))
    ∧ (L = 0 → batchSampler bs dl (List.range' s L) = [])
    ∧ (dl = true → L < bs → batchSampler bs dl (List.range' s L) = []) := by
  have hrl : (List.range' s L).length = L := List.length_range' s 1 L
  have hlen : (batchSampler bs dl (List.range' s L)).length = batchSamplerLen L bs dl := by
    rw [batchSampler_length bs hbs dl, hrl]
  refine ⟨hlen, ?_, ?_, ?_⟩
  · intro hj
    rw [hlen] at hj
    cases dl with
    | false =>
      have hb : batchSampler bs false (List.range' s L)
          = chunkList bs (List.range' s L) := rfl
      have hj' : j * bs < L := by
        have : batchSamplerLen L bs false = (L + bs - 1) / bs := rfl
        rw [this] at hj
        exact (lt_ceilDiv_iff bs L j hbs).mp hj
      rw [hb, chunkList_range'_getD bs hbs j s L hj']
    | true =>
      have hj' : (j + 1) * bs ≤ L := by
        have : batchSamplerLen L bs true = L / bs := rfl
        rw [this] at hj
        rw [← Nat.le_div_iff_mul_le hbs]
        omega
      rw [batchSampler_true_getD bs hbs j s L hj']
      have hsm : (j + 1) * bs = j * bs + bs := Nat.succ_mul j bs
      have hmin : min bs (L - j * bs) = bs := Nat.min_eq_left (by omega)
      rw [hmin]
  · intro h0
    subst h0
    cases dl <;> rfl
  · intro hdl hLbs
    subst hdl
    have h0 : (batchSampler bs true (List.range' s L)).length = 0 := by
      rw [hlen]
      have : batchSamplerLen L bs true = L / bs := rfl
      rw [this, Nat.div_eq_of_lt hLbs]
    exact List.length_eq_zero.mp h0

theorem C8_witness :
    (batchSampler 2 true (List.range' 4 5)).length = batchSamplerLen 5 2 true
    ∧ (1 < (batchSampler 2 true (List.range' 4 5)).length →
        (batchSampler 2 true (List.range' 4 5)).getD 1 []
          = List.range' (4 + 1 * 2) (min 2 (5 - 1 * 2)))
    ∧ (5 = 0 → batchSampler 2 true (List.range' 4 5) = [])
    ∧ (true = true → 5 < 2 → batchSampler 2 true (List.range' 4 5) = []) :=
  C8_batcher_ascending_chunks 4 5 2 true 1 (by decide)

/-- C9: with shuffle off, a round-robin pass never consumes the seeded
generator, so its output is entirely independent of seed and epoch; the
proportional scheduler has no such independence, because the weighted draw
list is still permuted with the seeded generator even when shuffle is off -
witnessed by two seeds giving different interleavings in the model. -/
theorem C9_noshuffle_seed_independence (lengths : List Nat) (bs : Nat) (dl : Bool)
    (seed1 epoch1 seed2 epoch2 : Nat) :
    roundRobinIter lengths bs dl false seed1 epoch1
        = roundRobinIter lengths bs dl false seed2 epoch2
    ∧ proportionalIter [1, 1, 1, 1] 1 false false 0 0
        ≠ proportionalIter [1, 1, 1, 1] 1 false false 1 0 := by
  constructor
  · unfold roundRobinIter
    dsimp only
    rw [buildDatasetIndices_fst_noshuffle, buildDatasetIndices_fst_noshuffle]
  · decide

theorem C9_witness :
    roundRobinIter [3, 2] 2 false false 7 1 = roundRobinIter [3, 2] 2 false false 0 5
    ∧ proportionalIter [1, 1, 1, 1] 1 false false 0 0
        ≠ proportionalIter [1, 1, 1, 1] 1 false false 1 0 :=
  C9_noshuffle_seed_independence [3, 2] 2 false 7 1 0 5

/-- C10: constructed over an empty lengths sequence, a round-robin pass
terminates immediately with zero batches (`cycle(range(0))` yields
nothing), but `__len__` dies on `min([])` (`ValueError`), so the length is
not defined at this boundary. -/
theorem C10_empty_lengths (bs : Nat) (dl sh : Bool) (seed epoch : Nat) :
    roundRobinIter [] bs dl sh seed epoch = some []
    ∧ roundRobinLen [] bs dl = none := by
  exact ⟨rfl, rfl⟩

theorem C10_witness :
    roundRobinIter [] 5 false true 3 8 = some []
    ∧ roundRobinLen [] 5 false = none :=
  C10_empty_lengths 5 false true 3 8
